import Mathlib

/-!
Shallow embedding of the calculator pipeline from src/src/main.rs:
lexer (tokenize), shunting-yard reorderer (parse_tokens) and postfix
evaluator (evaluate_tree), composed by evaluate_expression.

Numbers are modelled as exact rationals (the Rust code uses f64; every
claim below is stated "double-precision rounding aside").  The fatal
abort caused by a failing unwrap in the lexer is modelled as an explicit
outcome (LexResult.fatal / EvalOutcome.fatal).
-/

namespace RustCalc

/-- Token type mirroring the Rust enum Token in main.rs. -/
inductive Token where
  | Number (v : ℚ)
  | Operator (c : Char)
  | LeftParenthesis
  | RightParenthesis
  deriving DecidableEq, Repr

/-- Operator precedence, mirroring fn precedence in main.rs. -/
def precedence (op : Char) : ℕ :=
  if op = '+' ∨ op = '-' then 1
  else if op = '*' ∨ op = '/' then 2
  else 0

/-- Value of a list of decimal digit characters, most significant first. -/
def digitsVal (ds : List Char) : ℕ :=
  ds.foldl (fun a c => 10 * a + (c.toNat - 48)) 0

/-- Model of Rust str::parse::<f64> restricted to buffers made of digits
and dots (the only buffers the lexer ever builds): it succeeds exactly
when there is at most one dot and at least one digit, returning the exact
rational value of the decimal literal, and fails (none) otherwise. -/
def parseNum (s : List Char) : Option ℚ :=
  if (s.all fun c => c.isDigit || c = '.') ∧ s.count '.' ≤ 1 ∧ s.any Char.isDigit then
    let ip := s.takeWhile Char.isDigit
    let fp := (s.dropWhile Char.isDigit).drop 1
    some ((digitsVal ip : ℚ) + (digitsVal fp : ℚ) / (10 : ℚ) ^ fp.length)
  else
    none

/-- Outcome of the lexer: ok, a recoverable error, or the fatal process
abort produced by buffer.parse().unwrap() panicking. -/
inductive LexResult where
  | ok (ts : List Token)
  | err (msg : String)
  | fatal
  deriving DecidableEq, Repr

/-- Character loop of fn tokenize in main.rs: first argument the remaining
input, second the pending digit buffer, third the tokens emitted so far. -/
def tokenizeLoop : List Char → List Char → List Token → LexResult
  | [], buffer, tokens =>
    if buffer.isEmpty then .ok tokens
    else
      match parseNum buffer with
      | some v => .ok (tokens ++ [Token.Number v])
      | none => .fatal
  | c :: cs, buffer, tokens =>
    if c = '+' ∨ c = '-' ∨ c = '*' ∨ c = '/' then
      if buffer.isEmpty then
        tokenizeLoop cs [] (tokens ++ [Token.Operator c])
      else
        match parseNum buffer with
        | some v => tokenizeLoop cs [] (tokens ++ [Token.Number v, Token.Operator c])
        | none => .fatal
    else if c = '(' then
      if buffer.isEmpty then
        tokenizeLoop cs buffer (tokens ++ [Token.LeftParenthesis])
      else
        .err "Invalid expression format"
    else if c = ')' then
      if buffer.isEmpty then
        tokenizeLoop cs buffer (tokens ++ [Token.RightParenthesis])
      else
        match parseNum buffer with
        | some v => tokenizeLoop cs [] (tokens ++ [Token.Number v, Token.RightParenthesis])
        | none => .fatal
    else if c.isDigit ∨ c = '.' then
      tokenizeLoop cs (buffer ++ [c]) tokens
    else if c = ' ' then
      tokenizeLoop cs buffer tokens
    else
      .err "Invalid character in expression"

/-- fn tokenize in main.rs. -/
def tokenize (expression : String) : LexResult :=
  tokenizeLoop expression.data [] []

/-- Inner while loop of the Operator arm of fn parse_tokens: pop operators
of greater or equal precedence off the operator stack (head = top of
stack), returning (popped, remaining stack). -/
def popGE (op : Char) : List Token → List Token × List Token
  | [] => ([], [])
  | t :: rest =>
    match t with
    | Token.Operator topc =>
      if precedence op ≤ precedence topc then
        (Token.Operator topc :: (popGE op rest).1, (popGE op rest).2)
      else
        ([], Token.Operator topc :: rest)
    | _ => ([], t :: rest)

/-- While loop of the RightParenthesis arm of fn parse_tokens: pop stack
entries into the output until a LeftParenthesis is popped (discarded) or
the stack empties; returns (popped output, remaining stack). -/
def popUntilLParen : List Token → List Token × List Token
  | [] => ([], [])
  | t :: rest =>
    if t = Token.LeftParenthesis then ([], rest)
    else (t :: (popUntilLParen rest).1, (popUntilLParen rest).2)

/-- Main loop of fn parse_tokens in main.rs: remaining input, output so
far, operator stack (head = top); at the end the remaining operator stack
is drained into the output in pop order. -/
def shuntGo : List Token → List Token → List Token → List Token
  | [], output, operators => output ++ operators
  | Token.Number v :: ts, output, operators =>
    shuntGo ts (output ++ [Token.Number v]) operators
  | Token.Operator op :: ts, output, operators =>
    shuntGo ts (output ++ (popGE op operators).1) (Token.Operator op :: (popGE op operators).2)
  | Token.LeftParenthesis :: ts, output, operators =>
    shuntGo ts output (Token.LeftParenthesis :: operators)
  | Token.RightParenthesis :: ts, output, operators =>
    shuntGo ts (output ++ (popUntilLParen operators).1) (popUntilLParen operators).2

/-- fn parse_tokens in main.rs (always returns Ok in the source). -/
def parse_tokens (tokens : List Token) : Except String (List Token) :=
  Except.ok (shuntGo tokens [] [])

/-- Token loop of fn evaluate_tree in main.rs: remaining postfix tokens
against the operand stack (head = most recently pushed). -/
def evalLoop : List Token → List ℚ → Except String ℚ
  | [], stack =>
    match stack with
    | [v] => Except.ok v
    | _ => Except.error "Invalid expression format"
  | Token.Number num :: ts, stack => evalLoop ts (num :: stack)
  | Token.Operator op :: ts, stack =>
    match stack with
    | operand2 :: operand1 :: rest =>
      if op = '+' then evalLoop ts ((operand1 + operand2) :: rest)
      else if op = '-' then evalLoop ts ((operand1 - operand2) :: rest)
      else if op = '*' then evalLoop ts ((operand1 * operand2) :: rest)
      else if op = '/' then
        if operand2 = 0 then Except.error "Division by zero"
        else evalLoop ts ((operand1 / operand2) :: rest)
      else Except.error "Invalid operator"
    | _ => Except.error "Invalid expression format"
  | _ :: _, _ => Except.error "Invalid token in expression"

/-- fn evaluate_tree in main.rs. -/
def evaluate_tree (tokens : List Token) : Except String ℚ :=
  evalLoop tokens []

/-- Outcome of the whole pipeline: a value, a recoverable error, or the
fatal abort propagated from the lexer unwrap. -/
inductive EvalOutcome where
  | ok (v : ℚ)
  | err (msg : String)
  | fatal
  deriving DecidableEq, Repr

/-- fn evaluate_expression in main.rs: the three stages in order,
short-circuiting on the first error. -/
def evaluate_expression (expression : String) : EvalOutcome :=
  match tokenize expression with
  | LexResult.fatal => EvalOutcome.fatal
  | LexResult.err m => EvalOutcome.err m
  | LexResult.ok tokens =>
    match parse_tokens tokens with
    | Except.error m => EvalOutcome.err m
    | Except.ok tree =>
      match evaluate_tree tree with
      | Except.error m => EvalOutcome.err m
      | Except.ok v => EvalOutcome.ok v

/-!
Reference semantics for claim C1, modelled from the spec's words:
the standard grammar of infix arithmetic with left-associative operators
of two precedence levels, its exact denotation, and a fuel-indexed
recursive-descent parser that defines which token sequences are valid
infix expressions and what they mean.
-/

/-- Abstract syntax of infix arithmetic expressions (spec side). -/
inductive Expr where
  | num (v : ℚ)
  | binop (op : Char) (l r : Expr)
  deriving DecidableEq, Repr

/-- Exact mathematical value of an expression; none on division by zero
or on an operator symbol outside the four arithmetic symbols. -/
def Expr.denote : Expr → Option ℚ
  | Expr.num v => some v
  | Expr.binop op l r =>
    match l.denote, r.denote with
    | some a, some b =>
      if op = '+' then some (a + b)
      else if op = '-' then some (a - b)
      else if op = '*' then some (a * b)
      else if op = '/' then
        if b = 0 then none else some (a / b)
      else none
    | _, _ => none

/-- Postorder (postfix) token sequence of an expression. -/
def postTokens : Expr → List Token
  | Expr.num v => [Token.Number v]
  | Expr.binop op l r => postTokens l ++ postTokens r ++ [Token.Operator op]

mutual

/-- Recursive-descent parser, factor level: a number or a parenthesised
expression (spec side, fuel-indexed). -/
def parseF : ℕ → List Token → Option (Expr × List Token)
  | 0, _ => none
  | _ + 1, Token.Number v :: rest => some (Expr.num v, rest)
  | fuel + 1, Token.LeftParenthesis :: rest =>
    match parseE fuel rest with
    | some (e, Token.RightParenthesis :: rest') => some (e, rest')
    | _ => none
  | _ + 1, _ => none

/-- Term-level loop: fold further factors joined by a multiplicative
operator onto the accumulator, left-associatively. -/
def parseTl : ℕ → Expr → List Token → Option (Expr × List Token)
  | 0, _, _ => none
  | fuel + 1, acc, Token.Operator c :: rest =>
    if c = '*' ∨ c = '/' then
      match parseF fuel rest with
      | some (f, rest') => parseTl fuel (Expr.binop c acc f) rest'
      | none => none
    else
      some (acc, Token.Operator c :: rest)
  | _ + 1, acc, ts => some (acc, ts)

/-- Recursive-descent parser, term level: factors joined by asterisk or
slash operators. -/
def parseT : ℕ → List Token → Option (Expr × List Token)
  | 0, _ => none
  | fuel + 1, ts =>
    match parseF fuel ts with
    | some (f, rest) => parseTl fuel f rest
    | none => none

/-- Expression-level loop: fold further terms joined by an additive
operator onto the accumulator, left-associatively. -/
def parseEl : ℕ → Expr → List Token → Option (Expr × List Token)
  | 0, _, _ => none
  | fuel + 1, acc, Token.Operator c :: rest =>
    if c = '+' ∨ c = '-' then
      match parseT fuel rest with
      | some (t, rest') => parseEl fuel (Expr.binop c acc t) rest'
      | none => none
    else
      some (acc, Token.Operator c :: rest)
  | _ + 1, acc, ts => some (acc, ts)

/-- Recursive-descent parser, expression level: terms joined by plus or
minus operators. -/
def parseE : ℕ → List Token → Option (Expr × List Token)
  | 0, _ => none
  | fuel + 1, ts =>
    match parseT fuel ts with
    | some (t, rest) => parseEl fuel t rest
    | none => none

end

/-- A token sequence is a valid infix expression with value e when the
reference parser consumes it entirely. -/
def infixParse (ts : List Token) : Option Expr :=
  match parseE (2 * ts.length + 1) ts with
  | some (e, []) => some e
  | _ => none

/-- Proof artifact: the shunting-yard loop without the output accumulator
and without the final drain, returning (output produced, final operator
stack). -/
def shunt : List Token → List Token → List Token × List Token
  | [], operators => ([], operators)
  | Token.Number v :: ts, operators =>
    (Token.Number v :: (shunt ts operators).1, (shunt ts operators).2)
  | Token.Operator op :: ts, operators =>
    ((popGE op operators).1 ++ (shunt ts (Token.Operator op :: (popGE op operators).2)).1,
      (shunt ts (Token.Operator op :: (popGE op operators).2)).2)
  | Token.LeftParenthesis :: ts, operators =>
    shunt ts (Token.LeftParenthesis :: operators)
  | Token.RightParenthesis :: ts, operators =>
    ((popUntilLParen operators).1 ++ (shunt ts (popUntilLParen operators).2).1,
      (shunt ts (popUntilLParen operators).2).2)

/-- Pending operators left on the stack by a parse at level l: all are
operator tokens of precedence at least l. -/
def pendOK (l : ℕ) (pend : List Token) : Prop :=
  ∀ t ∈ pend, ∃ c, t = Token.Operator c ∧ l ≤ precedence c

/-- The top of the operator stack, if it is an operator at all, has
precedence below l. -/
def guardLt (l : ℕ) (os : List Token) : Prop :=
  ∀ c, os.head? = some (Token.Operator c) → precedence c < l

/-- Correctness statement for the factor level: shunting the consumed
tokens over any operator stack emits exactly the postfix of the factor
and leaves the stack unchanged. -/
def StmtF (fuel : ℕ) : Prop :=
  ∀ ts e rest, parseF fuel ts = some (e, rest) →
    ∃ pre, ts = pre ++ rest ∧ ∀ os, shunt pre os = (postTokens e, os)

/-- Correctness statement for the term-level loop: shunting the consumed
tokens over a stack whose top block pend₀ holds the operators still
pending for the accumulator flushes that block and leaves a new pending
block for the result. -/
def StmtTl (fuel : ℕ) : Prop :=
  ∀ acc ts e rest, parseTl fuel acc ts = some (e, rest) →
    ∃ pre, ts = pre ++ rest ∧
      ∀ os pend₀ emitted, guardLt 2 os → pendOK 2 pend₀ →
        postTokens acc = emitted ++ pend₀ →
        ∃ pend, pendOK 2 pend ∧
          (shunt pre (pend₀ ++ os)).2 = pend ++ os ∧
          postTokens e = emitted ++ (shunt pre (pend₀ ++ os)).1 ++ pend

/-- Correctness statement for the term level. -/
def StmtT (fuel : ℕ) : Prop :=
  ∀ ts e rest, parseT fuel ts = some (e, rest) →
    ∃ pre, ts = pre ++ rest ∧
      ∀ os, guardLt 2 os →
        ∃ pend, pendOK 2 pend ∧
          (shunt pre os).2 = pend ++ os ∧
          postTokens e = (shunt pre os).1 ++ pend

/-- Correctness statement for the expression-level loop. -/
def StmtEl (fuel : ℕ) : Prop :=
  ∀ acc ts e rest, parseEl fuel acc ts = some (e, rest) →
    ∃ pre, ts = pre ++ rest ∧
      ∀ os pend₀ emitted, guardLt 1 os → pendOK 1 pend₀ →
        postTokens acc = emitted ++ pend₀ →
        ∃ pend, pendOK 1 pend ∧
          (shunt pre (pend₀ ++ os)).2 = pend ++ os ∧
          postTokens e = emitted ++ (shunt pre (pend₀ ++ os)).1 ++ pend

/-- Correctness statement for the expression level. -/
def StmtE (fuel : ℕ) : Prop :=
  ∀ ts e rest, parseE fuel ts = some (e, rest) →
    ∃ pre, ts = pre ++ rest ∧
      ∀ os, guardLt 1 os →
        ∃ pend, pendOK 1 pend ∧
          (shunt pre os).2 = pend ++ os ∧
          postTokens e = (shunt pre os).1 ++ pend

/-- Every operator token in the list carries one of the four arithmetic
symbols the lexer can emit. -/
def goodOps (ts : List Token) : Prop :=
  ∀ c, Token.Operator c ∈ ts → c = '+' ∨ c = '-' ∨ c = '*' ∨ c = '/'

theorem shuntGo_eq_shunt (ts : List Token) : ∀ output operators,
    shuntGo ts output operators =
      output ++ (shunt ts operators).1 ++ (shunt ts operators).2 := by
  induction ts with
  | nil => intro output operators; simp [shuntGo, shunt]
  | cons t ts ih =>
    intro output operators
    cases t <;> simp [shuntGo, shunt, ih]

theorem shunt_append (a : List Token) : ∀ b operators,
    shunt (a ++ b) operators =
      ((shunt a operators).1 ++ (shunt b (shunt a operators).2).1,
        (shunt b (shunt a operators).2).2) := by
  induction a with
  | nil => intro b operators; simp [shunt]
  | cons t a ih =>
    intro b operators
    cases t <;> simp [shunt, ih]

theorem guardLt_mono {l₁ l₂ : ℕ} (h : l₁ ≤ l₂) {os : List Token}
    (hg : guardLt l₁ os) : guardLt l₂ os :=
  fun c hc => lt_of_lt_of_le (hg c hc) h

theorem popGE_stop (c : Char) (os : List Token)
    (h : guardLt (precedence c) os) : popGE c os = ([], os) := by
  cases os with
  | nil => rfl
  | cons t rest =>
    cases t with
    | Operator topc =>
      have hlt : precedence topc < precedence c := h topc rfl
      simp [popGE, Nat.not_le.mpr hlt]
    | Number v => rfl
    | LeftParenthesis => rfl
    | RightParenthesis => rfl

theorem popGE_flush (c : Char) (pend : List Token) : ∀ os : List Token,
    (∀ t ∈ pend, ∃ c', t = Token.Operator c' ∧ precedence c ≤ precedence c') →
    guardLt (precedence c) os →
    popGE c (pend ++ os) = (pend, os) := by
  induction pend with
  | nil => intro os _ hg; simpa using popGE_stop c os hg
  | cons t pend ih =>
    intro os hp hg
    obtain ⟨c', ht, hle⟩ := hp t (List.mem_cons_self t pend)
    subst ht
    simp [popGE, hle, ih os (fun u hu => hp u (List.mem_cons_of_mem _ hu)) hg]

theorem popUntil_flush (pend : List Token) : ∀ os : List Token,
    (∀ t ∈ pend, t ≠ Token.LeftParenthesis) →
    popUntilLParen (pend ++ Token.LeftParenthesis :: os) = (pend, os) := by
  induction pend with
  | nil => intro os _; simp [popUntilLParen]
  | cons t pend ih =>
    intro os hp
    have hne : t ≠ Token.LeftParenthesis := hp t (List.mem_cons_self t pend)
    simp [popUntilLParen, hne, ih os (fun u hu => hp u (List.mem_cons_of_mem _ hu))]

theorem pendOK_mono {l₁ l₂ : ℕ} (h : l₂ ≤ l₁) {p : List Token}
    (hp : pendOK l₁ p) : pendOK l₂ p := by
  intro t ht
  obtain ⟨c, rfl, hc⟩ := hp t ht
  exact ⟨c, rfl, le_trans h hc⟩

theorem pendOK_ne_lparen {l : ℕ} {p : List Token} (hp : pendOK l p) :
    ∀ t ∈ p, t ≠ Token.LeftParenthesis := by
  intro t ht
  obtain ⟨c, rfl, _⟩ := hp t ht
  simp

theorem stepF (fuel : ℕ) (ihE : StmtE fuel) : StmtF (fuel + 1) := by
  intro ts e rest h
  cases ts with
  | nil => simp [parseF] at h
  | cons t ts' =>
    cases t with
    | Number v =>
      simp [parseF] at h
      obtain ⟨rfl, rfl⟩ := h
      exact ⟨[Token.Number v], by simp, fun os => by simp [shunt, postTokens]⟩
    | Operator c => simp [parseF] at h
    | RightParenthesis => simp [parseF] at h
    | LeftParenthesis =>
      cases hE : parseE fuel ts' with
      | none => simp [parseF, hE] at h
      | some pr =>
        obtain ⟨e', rest₂⟩ := pr
        cases rest₂ with
        | nil => simp [parseF, hE] at h
        | cons u rest' =>
          cases u with
          | Number w => simp [parseF, hE] at h
          | Operator c => simp [parseF, hE] at h
          | LeftParenthesis => simp [parseF, hE] at h
          | RightParenthesis =>
            simp [parseF, hE] at h
            obtain ⟨rfl, rfl⟩ := h
            obtain ⟨preE, hts', hinner⟩ := ihE ts' e' (Token.RightParenthesis :: rest') hE
            refine ⟨Token.LeftParenthesis :: preE ++ [Token.RightParenthesis], ?_, ?_⟩
            · rw [hts']; simp
            · intro os
              have hg : guardLt 1 (Token.LeftParenthesis :: os) := by
                intro c hc; simp at hc
              obtain ⟨pend, hpend, hstk, hpost⟩ := hinner (Token.LeftParenthesis :: os) hg
              have h1 : shunt (Token.LeftParenthesis :: preE ++ [Token.RightParenthesis]) os
                  = shunt (preE ++ [Token.RightParenthesis]) (Token.LeftParenthesis :: os) := by
                simp [shunt]
              rw [h1, shunt_append, hstk]
              simp [shunt, popUntil_flush pend os (pendOK_ne_lparen hpend), hpost]

theorem stmt_loop_base (l : ℕ) (acc : Expr) (ts : List Token) :
    ∃ pre, ts = pre ++ ts ∧
      ∀ os pend₀ emitted, guardLt l os → pendOK l pend₀ →
        postTokens acc = emitted ++ pend₀ →
        ∃ pend, pendOK l pend ∧
          (shunt pre (pend₀ ++ os)).2 = pend ++ os ∧
          postTokens acc = emitted ++ (shunt pre (pend₀ ++ os)).1 ++ pend :=
  ⟨[], by simp, fun os pend₀ emitted _ hp hacc =>
    ⟨pend₀, hp, by simp [shunt], by simp [shunt, hacc]⟩⟩

theorem stepTl (fuel : ℕ) (ihF : StmtF fuel) (ihTl : StmtTl fuel) : StmtTl (fuel + 1) := by
  intro acc ts e rest h
  cases ts with
  | nil =>
    simp [parseTl] at h
    obtain ⟨rfl, rfl⟩ := h
    exact stmt_loop_base 2 acc []
  | cons t ts' =>
    cases t with
    | Number v =>
      simp [parseTl] at h
      obtain ⟨rfl, rfl⟩ := h
      exact stmt_loop_base 2 acc _
    | LeftParenthesis =>
      simp [parseTl] at h
      obtain ⟨rfl, rfl⟩ := h
      exact stmt_loop_base 2 acc _
    | RightParenthesis =>
      simp [parseTl] at h
      obtain ⟨rfl, rfl⟩ := h
      exact stmt_loop_base 2 acc _
    | Operator c =>
      by_cases hc : c = '*' ∨ c = '/'
      · cases hPF : parseF fuel ts' with
        | none => simp [parseTl, hc, hPF] at h
        | some pr =>
          obtain ⟨f, rest₂⟩ := pr
          simp only [parseTl, if_pos hc, hPF] at h
          obtain ⟨preTl, hts₂, hinnerTl⟩ := ihTl (Expr.binop c acc f) rest₂ e rest h
          obtain ⟨preF, htsF, hshF⟩ := ihF ts' f rest₂ hPF
          refine ⟨Token.Operator c :: (preF ++ preTl), ?_, ?_⟩
          · rw [htsF, hts₂]; simp
          · intro os pend₀ emitted hg hp hacc
            have hprec : precedence c = 2 := by
              rcases hc with rfl | rfl <;> decide
            have hflush : popGE c (pend₀ ++ os) = (pend₀, os) := by
              apply popGE_flush
              · intro t ht
                obtain ⟨c', rfl, h2⟩ := hp t ht
                exact ⟨c', rfl, by rw [hprec]; exact h2⟩
              · rw [hprec]; exact hg
            obtain ⟨pend, hpend, hstk, hpost⟩ := hinnerTl os [Token.Operator c]
              (emitted ++ pend₀ ++ postTokens f) hg
              (by
                intro t ht
                simp at ht
                subst ht
                exact ⟨c, rfl, hprec.ge⟩)
              (by simp [postTokens, hacc])
            have hcomp : shunt (Token.Operator c :: (preF ++ preTl)) (pend₀ ++ os)
                = (pend₀ ++ (postTokens f ++ (shunt preTl (Token.Operator c :: os)).1),
                   (shunt preTl (Token.Operator c :: os)).2) := by
              simp [shunt, hflush, shunt_append, hshF (Token.Operator c :: os)]
            refine ⟨pend, hpend, ?_, ?_⟩
            · rw [hcomp]
              simpa using hstk
            · rw [hcomp, hpost]
              simp
      · simp [parseTl, hc] at h
        obtain ⟨rfl, rfl⟩ := h
        exact stmt_loop_base 2 acc _

theorem stepT (fuel : ℕ) (ihF : StmtF fuel) (ihTl : StmtTl fuel) : StmtT (fuel + 1) := by
  intro ts e rest h
  cases hPF : parseF fuel ts with
  | none => simp [parseT, hPF] at h
  | some pr =>
    obtain ⟨f, rest₁⟩ := pr
    simp only [parseT, hPF] at h
    obtain ⟨preF, htsF, hshF⟩ := ihF ts f rest₁ hPF
    obtain ⟨preTl, hts₁, hinnerTl⟩ := ihTl f rest₁ e rest h
    refine ⟨preF ++ preTl, ?_, ?_⟩
    · rw [htsF, hts₁]; simp
    · intro os hg
      obtain ⟨pend, hpend, hstk, hpost⟩ := hinnerTl os [] (postTokens f) hg
        (by intro t ht; simp at ht) (by simp)
      refine ⟨pend, hpend, ?_, ?_⟩
      · rw [shunt_append, hshF os]
        simpa using hstk
      · rw [shunt_append, hshF os, hpost]
        simp

theorem stepEl (fuel : ℕ) (ihT : StmtT fuel) (ihEl : StmtEl fuel) : StmtEl (fuel + 1) := by
  intro acc ts e rest h
  cases ts with
  | nil =>
    simp [parseEl] at h
    obtain ⟨rfl, rfl⟩ := h
    exact stmt_loop_base 1 acc []
  | cons t ts' =>
    cases t with
    | Number v =>
      simp [parseEl] at h
      obtain ⟨rfl, rfl⟩ := h
      exact stmt_loop_base 1 acc _
    | LeftParenthesis =>
      simp [parseEl] at h
      obtain ⟨rfl, rfl⟩ := h
      exact stmt_loop_base 1 acc _
    | RightParenthesis =>
      simp [parseEl] at h
      obtain ⟨rfl, rfl⟩ := h
      exact stmt_loop_base 1 acc _
    | Operator c =>
      by_cases hc : c = '+' ∨ c = '-'
      · cases hPT : parseT fuel ts' with
        | none => simp [parseEl, hc, hPT] at h
        | some pr =>
          obtain ⟨t, rest₂⟩ := pr
          simp only [parseEl, if_pos hc, hPT] at h
          obtain ⟨preEl, hts₂, hinnerEl⟩ := ihEl (Expr.binop c acc t) rest₂ e rest h
          obtain ⟨preT, htsT, hinnerT⟩ := ihT ts' t rest₂ hPT
          refine ⟨Token.Operator c :: (preT ++ preEl), ?_, ?_⟩
          · rw [htsT, hts₂]; simp
          · intro os pend₀ emitted hg hp hacc
            have hprec : precedence c = 1 := by
              rcases hc with rfl | rfl <;> decide
            have hflush : popGE c (pend₀ ++ os) = (pend₀, os) := by
              apply popGE_flush
              · intro t ht
                obtain ⟨c', rfl, h1⟩ := hp t ht
                exact ⟨c', rfl, by rw [hprec]; exact h1⟩
              · rw [hprec]; exact hg
            have hg2 : guardLt 2 (Token.Operator c :: os) := by
              intro c' hc'
              simp at hc'
              subst hc'
              omega
            obtain ⟨pendT, hpendT, hstkT, hpostT⟩ := hinnerT (Token.Operator c :: os) hg2
            obtain ⟨pend, hpend, hstk, hpost⟩ := hinnerEl os (pendT ++ [Token.Operator c])
              (emitted ++ pend₀ ++ (shunt preT (Token.Operator c :: os)).1) hg
              (by
                intro t ht
                rcases List.mem_append.1 ht with h1 | h2
                · obtain ⟨c', rfl, hge⟩ := hpendT t h1
                  exact ⟨c', rfl, le_trans one_le_two hge⟩
                · simp at h2
                  subst h2
                  exact ⟨c, rfl, hprec.ge⟩)
              (by
                rw [show postTokens (Expr.binop c acc t)
                    = postTokens acc ++ postTokens t ++ [Token.Operator c] from rfl,
                  hacc, hpostT]
                simp)
            have hcomp : shunt (Token.Operator c :: (preT ++ preEl)) (pend₀ ++ os)
                = (pend₀ ++ ((shunt preT (Token.Operator c :: os)).1
                      ++ (shunt preEl (pendT ++ (Token.Operator c :: os))).1),
                   (shunt preEl (pendT ++ (Token.Operator c :: os))).2) := by
              simp [shunt, hflush, shunt_append, hstkT]
            refine ⟨pend, hpend, ?_, ?_⟩
            · rw [hcomp]
              simpa using hstk
            · rw [hcomp, hpost]
              simp
      · simp [parseEl, hc] at h
        obtain ⟨rfl, rfl⟩ := h
        exact stmt_loop_base 1 acc _

theorem stepE (fuel : ℕ) (ihT : StmtT fuel) (ihEl : StmtEl fuel) : StmtE (fuel + 1) := by
  intro ts e rest h
  cases hPT : parseT fuel ts with
  | none => simp [parseE, hPT] at h
  | some pr =>
    obtain ⟨t, rest₁⟩ := pr
    simp only [parseE, hPT] at h
    obtain ⟨preT, htsT, hinnerT⟩ := ihT ts t rest₁ hPT
    obtain ⟨preEl, hts₁, hinnerEl⟩ := ihEl t rest₁ e rest h
    refine ⟨preT ++ preEl, ?_, ?_⟩
    · rw [htsT, hts₁]; simp
    · intro os hg
      obtain ⟨pendT, hpendT, hstkT, hpostT⟩ := hinnerT os (guardLt_mono one_le_two hg)
      obtain ⟨pend, hpend, hstk, hpost⟩ := hinnerEl os pendT ((shunt preT os).1) hg
        (pendOK_mono one_le_two hpendT) hpostT
      refine ⟨pend, hpend, ?_, ?_⟩
      · rw [shunt_append, hstkT]
        exact hstk
      · rw [shunt_append, hstkT, hpost]

theorem shuntStmts : ∀ fuel, StmtF fuel ∧ StmtTl fuel ∧ StmtT fuel ∧ StmtEl fuel ∧ StmtE fuel := by
  intro fuel
  induction fuel with
  | zero =>
    refine ⟨?_, ?_, ?_, ?_, ?_⟩
    · intro ts e rest h; simp [parseF] at h
    · intro acc ts e rest h; simp [parseTl] at h
    · intro ts e rest h; simp [parseT] at h
    · intro acc ts e rest h; simp [parseEl] at h
    · intro ts e rest h; simp [parseE] at h
  | succ n ih =>
    obtain ⟨hF, hTl, hT, hEl, hE⟩ := ih
    exact ⟨stepF n hE, stepTl n hF hTl, stepT n hF hTl, stepEl n hT hEl, stepE n hT hEl⟩

theorem shuntGo_infixParse (ts : List Token) (e : Expr)
    (h : infixParse ts = some e) : shuntGo ts [] [] = postTokens e := by
  unfold infixParse at h
  cases hE : parseE (2 * ts.length + 1) ts with
  | none => rw [hE] at h; simp at h
  | some pr =>
    obtain ⟨e', rest⟩ := pr
    cases rest with
    | cons u rest' => rw [hE] at h; simp at h
    | nil =>
      rw [hE] at h
      simp at h
      subst h
      obtain ⟨pre, hpre, hinner⟩ := (shuntStmts (2 * ts.length + 1)).2.2.2.2 ts e' [] hE
      have hpre' : pre = ts := by simpa using hpre.symm
      subst hpre'
      obtain ⟨pend, hpend, hstk, hpost⟩ := hinner [] (by intro c hc; simp at hc)
      rw [shuntGo_eq_shunt]
      simp only [List.nil_append]
      rw [hstk, hpost]
      simp

theorem evalLoop_postTokens (e : Expr) : ∀ v, Expr.denote e = some v →
    ∀ rest stack, evalLoop (postTokens e ++ rest) stack = evalLoop rest (v :: stack) := by
  induction e with
  | num w =>
    intro v hv rest stack
    simp [Expr.denote] at hv
    subst hv
    simp [postTokens, evalLoop]
  | binop op l r ihl ihr =>
    intro v hv rest stack
    cases hl : l.denote with
    | none => simp [Expr.denote, hl] at hv
    | some a =>
      cases hr : r.denote with
      | none => simp [Expr.denote, hl, hr] at hv
      | some b =>
        simp only [Expr.denote, hl, hr] at hv
        have hassoc : postTokens (Expr.binop op l r) ++ rest
            = postTokens l ++ (postTokens r ++ (Token.Operator op :: rest)) := by
          simp [postTokens]
        rw [hassoc, ihl a hl, ihr b hr]
        by_cases h1 : op = '+'
        · subst h1
          simp at hv
          subst hv
          simp [evalLoop]
        · by_cases h2 : op = '-'
          · subst h2
            simp [h1] at hv
            subst hv
            simp [evalLoop]
          · by_cases h3 : op = '*'
            · subst h3
              simp [h1, h2] at hv
              subst hv
              simp [evalLoop]
            · by_cases h4 : op = '/'
              · subst h4
                simp [h1, h2, h3] at hv
                by_cases hb : b = 0
                · simp [hb] at hv
                · simp [hb] at hv
                  subst hv
                  simp [evalLoop, h1, h2, h3, hb]
              · simp [h1, h2, h3, h4] at hv

theorem popGE_mem1 (c : Char) (os : List Token) :
    ∀ t, t ∈ (popGE c os).1 → t ∈ os := by
  induction os with
  | nil => intro t h; simp [popGE] at h
  | cons u rest ih =>
    intro t h
    cases u with
    | Operator topc =>
      by_cases hle : precedence c ≤ precedence topc
      · simp [popGE, hle] at h
        rcases h with rfl | h
        · exact List.mem_cons_self _ _
        · exact List.mem_cons_of_mem _ (ih t h)
      · simp [popGE, hle] at h
    | Number v => simp [popGE] at h
    | LeftParenthesis => simp [popGE] at h
    | RightParenthesis => simp [popGE] at h

theorem popGE_mem2 (c : Char) (os : List Token) :
    ∀ t, t ∈ (popGE c os).2 → t ∈ os := by
  induction os with
  | nil => intro t h; simp [popGE] at h
  | cons u rest ih =>
    intro t h
    cases u with
    | Operator topc =>
      by_cases hle : precedence c ≤ precedence topc
      · simp [popGE, hle] at h
        exact List.mem_cons_of_mem _ (ih t h)
      · simpa [popGE, hle] using h
    | Number v => simpa [popGE] using h
    | LeftParenthesis => simpa [popGE] using h
    | RightParenthesis => simpa [popGE] using h

theorem popUntil_mem1 (os : List Token) :
    ∀ t, t ∈ (popUntilLParen os).1 → t ∈ os := by
  induction os with
  | nil => intro t h; simp [popUntilLParen] at h
  | cons u rest ih =>
    intro t h
    by_cases hu : u = Token.LeftParenthesis
    · simp [popUntilLParen, hu] at h
    · simp [popUntilLParen, hu] at h
      rcases h with rfl | h
      · exact List.mem_cons_self _ _
      · exact List.mem_cons_of_mem _ (ih t h)

theorem popUntil_mem2 (os : List Token) :
    ∀ t, t ∈ (popUntilLParen os).2 → t ∈ os := by
  induction os with
  | nil => intro t h; simp [popUntilLParen] at h
  | cons u rest ih =>
    intro t h
    by_cases hu : u = Token.LeftParenthesis
    · simp [popUntilLParen, hu] at h
      exact List.mem_cons_of_mem _ h
    · simp [popUntilLParen, hu] at h
      exact List.mem_cons_of_mem _ (ih t h)

theorem shunt_no_rparen (ts : List Token) : ∀ os, Token.RightParenthesis ∉ os →
    Token.RightParenthesis ∉ (shunt ts os).1 ∧ Token.RightParenthesis ∉ (shunt ts os).2 := by
  induction ts with
  | nil =>
    intro os h
    exact ⟨by simp [shunt], by simpa [shunt] using h⟩
  | cons t ts ih =>
    intro os h
    cases t with
    | Number v =>
      obtain ⟨h1, h2⟩ := ih os h
      refine ⟨?_, by simpa [shunt] using h2⟩
      intro hmem
      simp [shunt] at hmem
      exact h1 hmem
    | Operator op =>
      have hst : Token.RightParenthesis ∉ Token.Operator op :: (popGE op os).2 := by
        intro hmem
        simp at hmem
        exact h (popGE_mem2 op os _ hmem)
      obtain ⟨h1, h2⟩ := ih _ hst
      refine ⟨?_, by simpa [shunt] using h2⟩
      intro hmem
      simp [shunt] at hmem
      rcases hmem with h' | h'
      · exact h (popGE_mem1 op os _ h')
      · exact h1 h'
    | LeftParenthesis =>
      have hst : Token.RightParenthesis ∉ Token.LeftParenthesis :: os := by
        intro hmem
        simp at hmem
        exact h hmem
      obtain ⟨h1, h2⟩ := ih _ hst
      exact ⟨by simpa [shunt] using h1, by simpa [shunt] using h2⟩
    | RightParenthesis =>
      have hst : Token.RightParenthesis ∉ (popUntilLParen os).2 := by
        intro hmem
        exact h (popUntil_mem2 os _ hmem)
      obtain ⟨h1, h2⟩ := ih _ hst
      refine ⟨?_, by simpa [shunt] using h2⟩
      intro hmem
      simp [shunt] at hmem
      rcases hmem with h' | h'
      · exact h (popUntil_mem1 os _ h')
      · exact h1 h'

theorem shunt_mem (ts : List Token) : ∀ os t,
    (t ∈ (shunt ts os).1 → t ∈ ts ∨ t ∈ os) ∧
    (t ∈ (shunt ts os).2 → t ∈ ts ∨ t ∈ os) := by
  induction ts with
  | nil =>
    intro os t
    exact ⟨by intro h; simp [shunt] at h, by intro h; simp [shunt] at h; exact Or.inr h⟩
  | cons u ts ih =>
    intro os t
    cases u with
    | Number v =>
      obtain ⟨ih1, ih2⟩ := ih os t
      constructor
      · intro h
        simp [shunt] at h
        rcases h with rfl | h
        · exact Or.inl (List.mem_cons_self _ _)
        · rcases ih1 h with h' | h'
          · exact Or.inl (List.mem_cons_of_mem _ h')
          · exact Or.inr h'
      · intro h
        simp only [shunt] at h
        rcases ih2 h with h' | h'
        · exact Or.inl (List.mem_cons_of_mem _ h')
        · exact Or.inr h'
    | Operator op =>
      obtain ⟨ih1, ih2⟩ := ih (Token.Operator op :: (popGE op os).2) t
      have hlift : t ∈ Token.Operator op :: (popGE op os).2 →
          t ∈ Token.Operator op :: ts ∨ t ∈ os := by
        intro h
        rcases List.mem_cons.1 h with rfl | h'
        · exact Or.inl (List.mem_cons_self _ _)
        · exact Or.inr (popGE_mem2 op os _ h')
      constructor
      · intro h
        simp [shunt] at h
        rcases h with h' | h'
        · exact Or.inr (popGE_mem1 op os _ h')
        · rcases ih1 h' with h'' | h''
          · exact Or.inl (List.mem_cons_of_mem _ h'')
          · exact hlift h''
      · intro h
        simp only [shunt] at h
        rcases ih2 h with h'' | h''
        · exact Or.inl (List.mem_cons_of_mem _ h'')
        · exact hlift h''
    | LeftParenthesis =>
      obtain ⟨ih1, ih2⟩ := ih (Token.LeftParenthesis :: os) t
      have hlift : t ∈ Token.LeftParenthesis :: os →
          t ∈ Token.LeftParenthesis :: ts ∨ t ∈ os := by
        intro h
        rcases List.mem_cons.1 h with rfl | h'
        · exact Or.inl (List.mem_cons_self _ _)
        · exact Or.inr h'
      constructor
      · intro h
        simp only [shunt] at h
        rcases ih1 h with h'' | h''
        · exact Or.inl (List.mem_cons_of_mem _ h'')
        · exact hlift h''
      · intro h
        simp only [shunt] at h
        rcases ih2 h with h'' | h''
        · exact Or.inl (List.mem_cons_of_mem _ h'')
        · exact hlift h''
    | RightParenthesis =>
      obtain ⟨ih1, ih2⟩ := ih (popUntilLParen os).2 t
      constructor
      · intro h
        simp [shunt] at h
        rcases h with h' | h'
        · exact Or.inr (popUntil_mem1 os _ h')
        · rcases ih1 h' with h'' | h''
          · exact Or.inl (List.mem_cons_of_mem _ h'')
          · exact Or.inr (popUntil_mem2 os _ h'')
      · intro h
        simp only [shunt] at h
        rcases ih2 h with h'' | h''
        · exact Or.inl (List.mem_cons_of_mem _ h'')
        · exact Or.inr (popUntil_mem2 os _ h'')

theorem goodOps_shuntGo {ts : List Token} (h : goodOps ts) :
    goodOps (shuntGo ts [] []) := by
  intro c hc
  rw [shuntGo_eq_shunt] at hc
  simp only [List.nil_append] at hc
  rcases List.mem_append.1 hc with h' | h'
  · rcases (shunt_mem ts [] (Token.Operator c)).1 h' with h'' | h''
    · exact h c h''
    · simp at h''
  · rcases (shunt_mem ts [] (Token.Operator c)).2 h' with h'' | h''
    · exact h c h''
    · simp at h''

theorem tokenizeLoop_err (cs : List Char) : ∀ buffer tokens m,
    tokenizeLoop cs buffer tokens = LexResult.err m →
    m = "Invalid expression format" ∨ m = "Invalid character in expression" := by
  induction cs with
  | nil =>
    intro buffer tokens m h
    by_cases hb : buffer.isEmpty
    · simp [tokenizeLoop, hb] at h
    · cases hp : parseNum buffer with
      | some v => simp [tokenizeLoop, hb, hp] at h
      | none => simp [tokenizeLoop, hb, hp] at h
  | cons c cs ih =>
    intro buffer tokens m h
    by_cases h1 : c = '+' ∨ c = '-' ∨ c = '*' ∨ c = '/'
    · by_cases hb : buffer.isEmpty
      · simp only [tokenizeLoop, if_pos h1, if_pos hb] at h
        exact ih _ _ _ h
      · cases hp : parseNum buffer with
        | some v =>
          simp only [tokenizeLoop, if_pos h1, if_neg hb, hp] at h
          exact ih _ _ _ h
        | none => simp [tokenizeLoop, h1, hb, hp] at h
    · by_cases h2 : c = '('
      · by_cases hb : buffer.isEmpty
        · simp only [tokenizeLoop, if_neg h1, if_pos h2, if_pos hb] at h
          exact ih _ _ _ h
        · simp [tokenizeLoop, h1, h2, hb] at h
          exact Or.inl h.symm
      · by_cases h3 : c = ')'
        · by_cases hb : buffer.isEmpty
          · simp only [tokenizeLoop, if_neg h1, if_neg h2, if_pos h3, if_pos hb] at h
            exact ih _ _ _ h
          · cases hp : parseNum buffer with
            | some v =>
              simp only [tokenizeLoop, if_neg h1, if_neg h2, if_pos h3, if_neg hb, hp] at h
              exact ih _ _ _ h
            | none => simp [tokenizeLoop, h1, h2, h3, hb, hp] at h
        · by_cases h4 : c.isDigit ∨ c = '.'
          · simp only [tokenizeLoop, if_neg h1, if_neg h2, if_neg h3, if_pos h4] at h
            exact ih _ _ _ h
          · by_cases h5 : c = ' '
            · simp only [tokenizeLoop, if_neg h1, if_neg h2, if_neg h3, if_neg h4,
                if_pos h5] at h
              exact ih _ _ _ h
            · simp [tokenizeLoop, h1, h2, h3, h4, h5] at h
              exact Or.inr h.symm

theorem goodOps_append {a b : List Token} (ha : goodOps a) (hb : goodOps b) :
    goodOps (a ++ b) :=
  fun c hc => (List.mem_append.1 hc).elim (ha c) (hb c)

theorem goodOps_single_num (v : ℚ) : goodOps [Token.Number v] := by
  intro c hc
  simp at hc

theorem goodOps_nil : goodOps [] := by
  intro c hc
  simp at hc

theorem tokenizeLoop_goodOps (cs : List Char) : ∀ buffer tokens ts,
    tokenizeLoop cs buffer tokens = LexResult.ok ts → goodOps tokens → goodOps ts := by
  induction cs with
  | nil =>
    intro buffer tokens ts h hg
    by_cases hb : buffer.isEmpty
    · simp [tokenizeLoop, hb] at h
      subst h
      exact hg
    · cases hp : parseNum buffer with
      | some v =>
        simp [tokenizeLoop, hb, hp] at h
        subst h
        exact goodOps_append hg (goodOps_single_num v)
      | none => simp [tokenizeLoop, hb, hp] at h
  | cons c cs ih =>
    intro buffer tokens ts h hg
    by_cases h1 : c = '+' ∨ c = '-' ∨ c = '*' ∨ c = '/'
    · have hopc : goodOps [Token.Operator c] := by
        intro c' hc'
        simp at hc'
        subst hc'
        exact h1
      by_cases hb : buffer.isEmpty
      · simp only [tokenizeLoop, if_pos h1, if_pos hb] at h
        exact ih _ _ _ h (goodOps_append hg hopc)
      · cases hp : parseNum buffer with
        | some v =>
          simp only [tokenizeLoop, if_pos h1, if_neg hb, hp] at h
          refine ih _ _ _ h ?_
          refine goodOps_append hg ?_
          intro c' hc'
          simp at hc'
          subst hc'
          exact h1
        | none => simp [tokenizeLoop, h1, hb, hp] at h
    · by_cases h2 : c = '('
      · by_cases hb : buffer.isEmpty
        · simp only [tokenizeLoop, if_neg h1, if_pos h2, if_pos hb] at h
          refine ih _ _ _ h (goodOps_append hg ?_)
          intro c' hc'
          simp at hc'
        · simp [tokenizeLoop, h1, h2, hb] at h
      · by_cases h3 : c = ')'
        · by_cases hb : buffer.isEmpty
          · simp only [tokenizeLoop, if_neg h1, if_neg h2, if_pos h3, if_pos hb] at h
            refine ih _ _ _ h (goodOps_append hg ?_)
            intro c' hc'
            simp at hc'
          · cases hp : parseNum buffer with
            | some v =>
              simp only [tokenizeLoop, if_neg h1, if_neg h2, if_pos h3, if_neg hb, hp] at h
              refine ih _ _ _ h (goodOps_append hg ?_)
              intro c' hc'
              simp at hc'
            | none => simp [tokenizeLoop, h1, h2, h3, hb, hp] at h
        · by_cases h4 : c.isDigit ∨ c = '.'
          · simp only [tokenizeLoop, if_neg h1, if_neg h2, if_neg h3, if_pos h4] at h
            exact ih _ _ _ h hg
          · by_cases h5 : c = ' '
            · simp only [tokenizeLoop, if_neg h1, if_neg h2, if_neg h3, if_neg h4,
                if_pos h5] at h
              exact ih _ _ _ h hg
            · simp [tokenizeLoop, h1, h2, h3, h4, h5] at h

theorem evalLoop_no_invalid (ts : List Token) : ∀ stack, goodOps ts →
    evalLoop ts stack ≠ Except.error "Invalid operator" := by
  induction ts with
  | nil =>
    intro stack _ h
    cases stack with
    | nil => simp [evalLoop] at h
    | cons v rest =>
      cases rest with
      | nil => simp [evalLoop] at h
      | cons w r => simp [evalLoop] at h
  | cons t ts ih =>
    intro stack hg h
    have hg' : goodOps ts := fun c hc => hg c (List.mem_cons_of_mem _ hc)
    cases t with
    | Number v => exact ih (v :: stack) hg' h
    | LeftParenthesis => simp [evalLoop] at h
    | RightParenthesis => simp [evalLoop] at h
    | Operator op =>
      have hop := hg op (List.mem_cons_self _ _)
      cases stack with
      | nil => simp [evalLoop] at h
      | cons b rest₁ =>
        cases rest₁ with
        | nil => simp [evalLoop] at h
        | cons a rest =>
          rcases hop with rfl | rfl | rfl | rfl
          · exact ih _ hg' (by simpa [evalLoop] using h)
          · exact ih _ hg' (by simpa [evalLoop] using h)
          · exact ih _ hg' (by simpa [evalLoop] using h)
          · by_cases hb : b = 0
            · simp [evalLoop, hb] at h
            · exact ih _ hg' (by simpa [evalLoop, hb] using h)

/-!
Claim theorems.
-/

/-- C1: for every valid infix expression string over the four operators,
parentheses and non-negative decimal literals — a string the lexer
accepts and whose token sequence the standard precedence grammar parses
completely with a well-defined (division-by-zero-free) exact value —
evaluate_expression returns Ok of the mathematically correct value of
the expression under left-associative, precedence-respecting evaluation
(numbers modelled as exact rationals, rounding aside). -/
theorem C1_correct_value (s : String) (ts : List Token) (e : Expr) (v : ℚ)
    (h1 : tokenize s = LexResult.ok ts)
    (h2 : infixParse ts = some e)
    (h3 : Expr.denote e = some v) :
    evaluate_expression s = EvalOutcome.ok v := by
  have hpost := shuntGo_infixParse ts e h2
  have heval : evaluate_tree (shuntGo ts [] []) = Except.ok v := by
    rw [hpost]
    have h4 := evalLoop_postTokens e v h3 [] []
    simpa [evaluate_tree, evalLoop] using h4
  simp [evaluate_expression, h1, parse_tokens, heval]

/-- Witness for C1 at the input "2+3*4". -/
theorem C1_correct_value_witness : evaluate_expression "2+3*4" = EvalOutcome.ok 14 := by
  have h1 : tokenize "2+3*4" = LexResult.ok
      [Token.Number 2, Token.Operator '+', Token.Number 3,
        Token.Operator '*', Token.Number 4] := by
    with_unfolding_all rfl
  have h2 : infixParse
      [Token.Number 2, Token.Operator '+', Token.Number 3,
        Token.Operator '*', Token.Number 4]
      = some (Expr.binop '+' (Expr.num 2) (Expr.binop '*' (Expr.num 3) (Expr.num 4))) := by
    with_unfolding_all rfl
  have h3 : Expr.denote
      (Expr.binop '+' (Expr.num 2) (Expr.binop '*' (Expr.num 3) (Expr.num 4)))
      = some 14 := by
    with_unfolding_all rfl
  exact C1_correct_value "2+3*4" _ _ 14 h1 h2 h3

/-- C2: the pipeline is left-associative and respects precedence and
parenthesis grouping on the three concrete inputs of the claim. -/
theorem C2_assoc_precedence_parens :
    evaluate_expression "8 - 3 - 2" = EvalOutcome.ok 3 ∧
    evaluate_expression "2 + 3 * 4" = EvalOutcome.ok 14 ∧
    evaluate_expression "(2 + 3) * 4" = EvalOutcome.ok 20 := by
  refine ⟨?_, ?_, ?_⟩ <;> with_unfolding_all rfl

/-- C3: whenever the evaluator applies the slash operator and the popped
right-hand operand (the more recently pushed stack value) is exactly
zero, it stops with the error "Division by zero"; in particular the
nested input "5/(2-2)" fails with that error. -/
theorem C3_division_by_zero :
    (∀ (rest : List Token) (a : ℚ) (stack : List ℚ),
        evalLoop (Token.Operator '/' :: rest) (0 :: a :: stack)
          = Except.error "Division by zero") ∧
    evaluate_expression "5/(2-2)" = EvalOutcome.err "Division by zero" := by
  constructor
  · intro rest a stack
    simp [evalLoop]
  · with_unfolding_all rfl

/-- C4: at the end of the token sequence the evaluator returns Ok of the
single remaining value exactly when the operand stack holds one value,
and the error "Invalid expression format" for every other stack size;
in particular the empty input fails with that error. -/
theorem C4_final_stack :
    (∀ stack : List ℚ,
        evalLoop [] stack =
          match stack with
          | [v] => Except.ok v
          | _ => Except.error "Invalid expression format") ∧
    evaluate_expression "" = EvalOutcome.err "Invalid expression format" := by
  constructor
  · intro stack
    cases stack with
    | nil => rfl
    | cons v rest =>
      cases rest with
      | nil => rfl
      | cons w r => rfl
  · with_unfolding_all rfl

/-- C5: an operator token met with fewer than two stack values (zero or
one) makes the evaluator return the error "Invalid expression format"
rather than crash; in particular "2 + + 3" fails with that error. -/
theorem C5_operator_underflow :
    (∀ (op : Char) (ts : List Token),
        evalLoop (Token.Operator op :: ts) [] = Except.error "Invalid expression format") ∧
    (∀ (op : Char) (ts : List Token) (v : ℚ),
        evalLoop (Token.Operator op :: ts) [v] = Except.error "Invalid expression format") ∧
    evaluate_expression "2 + + 3" = EvalOutcome.err "Invalid expression format" := by
  refine ⟨fun op ts => rfl, fun op ts v => rfl, ?_⟩
  with_unfolding_all rfl

/-- C6: the reorderer never fails: parse_tokens returns Ok on every token
sequence, and on a right parenthesis the popping loop simply stops when
the operator stack empties without a matching left parenthesis. -/
theorem C6_parse_tokens_total :
    (∀ ts : List Token, ∃ out, parse_tokens ts = Except.ok out) ∧
    popUntilLParen [] = ([], []) :=
  ⟨fun ts => ⟨shuntGo ts [] [], rfl⟩, rfl⟩

/-- C8: a buffered literal with two decimal points fails the float parse
and the lexer unwrap aborts the process fatally instead of returning a
propagated error. -/
theorem C8_malformed_literal_aborts :
    tokenize "1.2.3" = LexResult.fatal ∧
    evaluate_expression "1.2.3" = EvalOutcome.fatal := by
  constructor <;> with_unfolding_all rfl

/-- C10: spaces are skipped by the lexer and do not affect the result. -/
theorem C10_whitespace :
    evaluate_expression "2   +   2" = EvalOutcome.ok 4 ∧
    evaluate_expression "2+2" = EvalOutcome.ok 4 := by
  constructor <;> with_unfolding_all rfl

/-- C7 counterexample: the lexer accepts "(2", and the reorderer's output
for its token sequence contains a LeftParenthesis token (the unmatched
left parenthesis is drained from the operator stack into the output), so
parenthesis tokens can reach the evaluation stage. -/
theorem C7_counterexample :
    tokenize "(2" = LexResult.ok [Token.LeftParenthesis, Token.Number 2] ∧
    Token.LeftParenthesis ∈ shuntGo [Token.LeftParenthesis, Token.Number 2] [] [] ∧
    evaluate_expression "(2" = EvalOutcome.err "Invalid token in expression" := by
  refine ⟨by with_unfolding_all rfl, ?_, by with_unfolding_all rfl⟩
  simp [shuntGo, shunt, popGE, popUntilLParen]

/-- C7 amended: a RightParenthesis token never appears in the reorderer's
output, but a LeftParenthesis token can (for lexer-accepted input with an
unmatched left parenthesis); whenever the evaluator meets either
parenthesis token it fails with the error "Invalid token in expression". -/
theorem C7_amended :
    (∀ ts : List Token, Token.RightParenthesis ∉ shuntGo ts [] []) ∧
    (∀ (ts : List Token) (stack : List ℚ),
        evalLoop (Token.LeftParenthesis :: ts) stack
          = Except.error "Invalid token in expression") ∧
    (∀ (ts : List Token) (stack : List ℚ),
        evalLoop (Token.RightParenthesis :: ts) stack
          = Except.error "Invalid token in expression") := by
  refine ⟨?_, fun ts stack => rfl, fun ts stack => rfl⟩
  intro ts hmem
  obtain ⟨h1, h2⟩ := shunt_no_rparen ts [] (by simp)
  rw [shuntGo_eq_shunt] at hmem
  simp only [List.nil_append] at hmem
  rcases List.mem_append.1 hmem with h' | h'
  · exact h1 h'
  · exact h2 h'

/-- Witness for C7 amended, instantiated at a concrete token sequence. -/
theorem C7_amended_witness :
    Token.RightParenthesis ∉ shuntGo [Token.Number 1, Token.RightParenthesis] [] [] :=
  C7_amended.1 [Token.Number 1, Token.RightParenthesis]

/-- C9: no input string ever produces the error "Invalid operator": the
lexer only emits the four recognized operator symbols, the reorderer only
rearranges tokens, and the evaluator recognizes all four. -/
theorem C9_no_invalid_operator (s : String) :
    evaluate_expression s ≠ EvalOutcome.err "Invalid operator" := by
  intro h
  unfold evaluate_expression at h
  cases htok : tokenize s with
  | fatal => rw [htok] at h; simp at h
  | err m =>
    rw [htok] at h
    simp at h
    subst h
    rcases tokenizeLoop_err s.data [] [] _ htok with h' | h' <;> simp at h'
  | ok ts =>
    rw [htok] at h
    simp only [parse_tokens] at h
    cases heval : evaluate_tree (shuntGo ts [] []) with
    | ok v => rw [heval] at h; simp at h
    | error m =>
      rw [heval] at h
      simp at h
      subst h
      have hgood : goodOps (shuntGo ts [] []) :=
        goodOps_shuntGo (tokenizeLoop_goodOps s.data [] [] ts htok goodOps_nil)
      exact evalLoop_no_invalid _ [] hgood heval

/-- Witness for C9, instantiated at a concrete input string. -/
theorem C9_no_invalid_operator_witness :
    evaluate_expression "2 & 3" ≠ EvalOutcome.err "Invalid operator" :=
  C9_no_invalid_operator "2 & 3"

end RustCalc
